import Mathlib

/-! The command-generation pipeline of gostwriter.

A shallow embedding of `main.go` (`generateCommand`, `parseArguments` and the
line that `main` prints) together with the library routines it calls
(`strings`, `unicode.IsSpace`, `os.ExpandEnv`, `github.com/google/shlex` and
the field-reference fragment of `text/template`; the rest of `text/template`
is a parameter of the engine).

Go strings are modelled as lists of Unicode code points (`GoString`); every
string the program handles is taken to be valid UTF-8.  Go errors are
modelled by their message.
-/

/-- A Go string, as its sequence of runes. -/
abbrev GoString := List Char

/-! ## package unicode -/

namespace unicode

/-- Go `unicode.IsSpace`: the Latin-1 cases listed in the function body and,
above Latin-1, the ranges of the `White_Space` table. -/
def IsSpace (r : Char) : Bool :=
  let n := r.toNat
  if n ≤ 0xFF then
    n == 0x09 || n == 0x0A || n == 0x0B || n == 0x0C || n == 0x0D || n == 0x20 ||
      n == 0x85 || n == 0xA0
  else
    n == 0x1680 || (0x2000 ≤ n && n ≤ 0x200A) || n == 0x2028 || n == 0x2029 ||
      n == 0x202F || n == 0x205F || n == 0x3000

end unicode

/-! ## package strings -/

namespace strings

/-- Go `strings.Split(s, sep)` for a one-rune separator: the pieces of `s`
between the occurrences of `sep`; `cur` is the piece being read. -/
def splitAux (sep : Char) : GoString → GoString → List GoString
  | [], cur => [cur]
  | c :: cs, cur =>
    if c = sep then cur :: splitAux sep cs [] else splitAux sep cs (cur ++ [c])

/-- Go `strings.Split(s, "\n")` is `Split s nl` with `nl` the newline rune. -/
def Split (s : GoString) (sep : Char) : List GoString :=
  splitAux sep s []

/-- Go `strings.TrimSpace`: drop the leading, then the trailing white space. -/
def TrimSpace (s : GoString) : GoString :=
  (((s.dropWhile unicode.IsSpace).reverse).dropWhile unicode.IsSpace).reverse

/-- Go `strings.FieldsFunc`: the maximal runs of runes that do not satisfy
`f`; `cur` is the field being read. -/
def fieldsAux (f : Char → Bool) : GoString → GoString → List GoString
  | [], cur => if cur = [] then [] else [cur]
  | c :: cs, cur =>
    if f c then
      (if cur = [] then fieldsAux f cs [] else cur :: fieldsAux f cs [])
    else fieldsAux f cs (cur ++ [c])

/-- Go `strings.FieldsFunc(s, f)`. -/
def FieldsFunc (s : GoString) (f : Char → Bool) : List GoString :=
  fieldsAux f s []

/-- Go `strings.Fields`: split around runs of `unicode.IsSpace` runes. -/
def Fields (s : GoString) : List GoString :=
  FieldsFunc s unicode.IsSpace

/-- Go `strings.Join(elems, sep)`. -/
def Join : List GoString → GoString → GoString
  | [], _ => []
  | [a], _ => a
  | a :: b :: rest, sep => a ++ sep ++ Join (b :: rest) sep

end strings

/-! ## package os: `Expand` / `ExpandEnv` -/

namespace os

/-- Go `isShellSpecialVar`. -/
def isShellSpecialVar (c : Char) : Bool :=
  c == '*' || c == '#' || c == '$' || c == '@' || c == '!' || c == '?' || c == '-' ||
    (c.toNat ≥ 48 && c.toNat ≤ 57)

/-- Go `isAlphaNum`: underscore, ASCII digit or ASCII letter. -/
def isAlphaNum (c : Char) : Bool :=
  c == '_' || (c.toNat ≥ 48 && c.toNat ≤ 57) || (c.toNat ≥ 97 && c.toNat ≤ 122) ||
    (c.toNat ≥ 65 && c.toNat ≤ 90)

/-- The loop "Scan to closing brace" of `getShellName`: `s` is the input from
index `i` on, `acc` the runes `s[1:i]` read so far. -/
def scanBrace : GoString → Nat → GoString → GoString × Nat
  | [], _, _ => ([], 1)
  | c :: cs, i, acc =>
    if c = '\x7d' then (if i = 1 then ([], 2) else (acc, i + 1))
    else scanBrace cs (i + 1) (acc ++ [c])

/-- Go `getShellName`: the name that starts `s` and the number of runes it
takes up.  The caller never passes the empty string. -/
def getShellName (s : GoString) : GoString × Nat :=
  match s with
  | [] => ([], 0)
  | c0 :: t =>
    if c0 = '\x7b' then
      match t with
      | c1 :: c2 :: _ =>
        if isShellSpecialVar c1 && c2 == '\x7d' then ([c1], 3) else scanBrace t 1 []
      | _ => scanBrace t 1 []
    else if isShellSpecialVar c0 then ([c0], 1)
    else (s.takeWhile isAlphaNum, (s.takeWhile isAlphaNum).length)

/-- The loop of Go `os.Expand`, on the part of the string not yet copied.
Every turn consumes a rune, so `fuel = s.length` is enough (`expandLoop_fuel`). -/
def expandLoop (mapping : GoString → GoString) : Nat → GoString → GoString
  | 0, s => s
  | _ + 1, [] => []
  | _ + 1, [c] => [c]
  | fuel + 1, c :: d :: rest =>
    if c = '$' then
      let nw := getShellName (d :: rest)
      (if nw.1 = [] ∧ nw.2 > 0 then []
       else if nw.1 = [] then [c]
       else mapping nw.1) ++ expandLoop mapping fuel ((d :: rest).drop nw.2)
    else c :: expandLoop mapping fuel (d :: rest)

/-- Go `os.Expand`. -/
def Expand (s : GoString) (mapping : GoString → GoString) : GoString :=
  expandLoop mapping s.length s

/-- Go `os.Getenv` over a process environment: the value, or the empty
string when the variable is unset. -/
def Getenv (environ : GoString → Option GoString) (key : GoString) : GoString :=
  (environ key).getD []

/-- Go `os.ExpandEnv`. -/
def ExpandEnv (environ : GoString → Option GoString) (s : GoString) : GoString :=
  Expand s (Getenv environ)

/-- A piece of a string in the eyes of `Expand`: a literal rune, a reference
`$NAME` or a reference `${NAME}`. -/
inductive Segment
  | lit (c : Char)
  | plain (name : GoString)
  | braced (name : GoString)

/-- The text of a piece. -/
def Segment.source : Segment → GoString
  | .lit c => [c]
  | .plain name => '$' :: name
  | .braced name => '$' :: '\x7b' :: (name ++ ['\x7d'])

/-- The text of a sequence of pieces. -/
def textOf (segs : List Segment) : GoString :=
  (segs.map Segment.source).flatten

/-- What a piece stands for in a process environment: a literal rune stands
for itself, a reference for the value of the variable, which is the empty
string when the variable is unset. -/
def Segment.value (environ : GoString → Option GoString) : Segment → GoString
  | .lit c => [c]
  | .plain name => Getenv environ name
  | .braced name => Getenv environ name

/-- The literal pieces of a text. -/
def lits (s : GoString) : List Segment :=
  s.map Segment.lit

/-- Whether a piece followed by the text `after` is read by `Expand` as
written: a literal dollar sign is at the end or before a rune that starts no
name; the name of `$NAME` is a non-empty run of letters, digits and
underscores that does not start with a digit and is not continued by
`after`; the name of `${NAME}` is not empty and holds no closing brace. -/
def Segment.readAs : Segment → GoString → Bool
  | .lit c, after =>
    c != '$' ||
      (match after with
       | [] => true
       | d :: _ => d != '\x7b' && !isShellSpecialVar d && !isAlphaNum d)
  | .plain name, after =>
    (match name with
     | [] => false
     | c :: _ => !isShellSpecialVar c && name.all isAlphaNum) &&
      (match after with
       | [] => true
       | d :: _ => !isAlphaNum d)
  | .braced name, _ => !name.isEmpty && !name.contains '\x7d'

/-- Whether every piece of the sequence is read as written. -/
def readAsWritten : List Segment → Bool
  | [] => true
  | seg :: rest => seg.readAs (textOf rest) && readAsWritten rest

end os

/-! ## package shlex -/

namespace shlex

/-- The states of the shlex tokenizer. -/
inductive lexerState
  | startState
  | inWordState
  | escapingState
  | escapingQuotedState
  | quotingEscapingState
  | quotingState
  | commentState
  deriving DecidableEq, Repr

/-- The token types a scan can produce. -/
inductive TokenType
  | UnknownToken
  | WordToken
  | SpaceToken
  | CommentToken
  deriving DecidableEq, Repr

/-- The rune classes of the default classifier. -/
inductive runeTokenClass
  | unknownRuneClass
  | spaceRuneClass
  | escapingQuoteRuneClass
  | nonEscapingQuoteRuneClass
  | escapeRuneClass
  | commentRuneClass
  deriving DecidableEq, Repr

/-- The default classifier: space, tab, carriage return and newline are
spaces, the double quote is the escaping quote, the single quote the
non-escaping quote, the backslash the escape and the hash sign the comment
rune. -/
def ClassifyRune (r : Char) : runeTokenClass :=
  if r = ' ' ∨ r = '\t' ∨ r = '\r' ∨ r = '\n' then .spaceRuneClass
  else if r = '\x22' then .escapingQuoteRuneClass
  else if r = '\x27' then .nonEscapingQuoteRuneClass
  else if r = '\x5c' then .escapeRuneClass
  else if r = '#' then .commentRuneClass
  else .unknownRuneClass

/-- What `Split` does with a token that `scanStream` returns without error:
`Lexer.Next` hands a word to `Split`, which appends it, and skips a comment. -/
def emit (subStrings : List GoString) (tokenType : TokenType) (value : GoString) :
    List GoString :=
  match tokenType with
  | .WordToken => subStrings ++ [value]
  | _ => subStrings

/-- The loops of `Split`, `Lexer.Next` and `Tokenizer.scanStream` as one pass
over the runes: `state`, `tokenType` and `value` are the locals of
`scanStream`, `subStrings` the slice of `Split`.  A token returned by
`scanStream` goes through `emit` and the scan restarts in `startState`.  The
result is the pair `(subStrings, err)` that `Split` returns. -/
def scan : lexerState → TokenType → GoString → List GoString → GoString →
    List GoString × Option GoString
  | state, tokenType, value, subStrings, [] =>
    match state with
    | .startState => (subStrings, none)
    | .inWordState => (emit subStrings tokenType value, none)
    | .escapingState => (subStrings, some "EOF found after escape character".toList)
    | .escapingQuotedState => (subStrings, some "EOF found after escape character".toList)
    | .quotingEscapingState =>
      (subStrings, some "EOF found when expecting closing quote".toList)
    | .quotingState => (subStrings, some "EOF found when expecting closing quote".toList)
    | .commentState => (emit subStrings tokenType value, none)
  | state, tokenType, value, subStrings, r :: rest =>
    match state with
    | .startState =>
      match ClassifyRune r with
      | .spaceRuneClass => scan .startState tokenType value subStrings rest
      | .escapingQuoteRuneClass =>
        scan .quotingEscapingState .WordToken value subStrings rest
      | .nonEscapingQuoteRuneClass => scan .quotingState .WordToken value subStrings rest
      | .escapeRuneClass => scan .escapingState .WordToken value subStrings rest
      | .commentRuneClass => scan .commentState .CommentToken value subStrings rest
      | .unknownRuneClass => scan .inWordState .WordToken (value ++ [r]) subStrings rest
    | .inWordState =>
      match ClassifyRune r with
      | .spaceRuneClass =>
        scan .startState .UnknownToken [] (emit subStrings tokenType value) rest
      | .escapingQuoteRuneClass => scan .quotingEscapingState tokenType value subStrings rest
      | .nonEscapingQuoteRuneClass => scan .quotingState tokenType value subStrings rest
      | .escapeRuneClass => scan .escapingState tokenType value subStrings rest
      | _ => scan .inWordState tokenType (value ++ [r]) subStrings rest
    | .escapingState => scan .inWordState tokenType (value ++ [r]) subStrings rest
    | .escapingQuotedState =>
      scan .quotingEscapingState tokenType (value ++ [r]) subStrings rest
    | .quotingEscapingState =>
      match ClassifyRune r with
      | .escapingQuoteRuneClass => scan .inWordState tokenType value subStrings rest
      | .escapeRuneClass => scan .escapingQuotedState tokenType value subStrings rest
      | _ => scan .quotingEscapingState tokenType (value ++ [r]) subStrings rest
    | .quotingState =>
      match ClassifyRune r with
      | .nonEscapingQuoteRuneClass => scan .inWordState tokenType value subStrings rest
      | _ => scan .quotingState tokenType (value ++ [r]) subStrings rest
    | .commentState =>
      match ClassifyRune r with
      | .spaceRuneClass =>
        if r = '\n' then
          scan .startState .UnknownToken [] (emit subStrings tokenType value) rest
        else scan .commentState tokenType (value ++ [r]) subStrings rest
      | _ => scan .commentState tokenType (value ++ [r]) subStrings rest

/-- Go `shlex.Split`: the words of `s` and the error, if any. -/
def Split (s : GoString) : List GoString × Option GoString :=
  scan .startState .UnknownToken [] [] s

end shlex

/-! ## Configuration values and Go maps -/

/-- A value decoded from YAML into `interface{}`: `nil`, `bool`, `int`,
`string`, `[]interface{}` or `map[string]interface{}`. -/
inductive Value
  | null
  | bool (b : Bool)
  | int (i : Int)
  | str (s : GoString)
  | seq (elems : List Value)
  | map (entries : List (GoString × Value))

/-- A Go `map[string]α`: `none` is the nil map, `some l` a map with the
entries `l`, whose order stands for the order in which `range` visits them. -/
abbrev GoMap (α : Type) := Option (List (GoString × α))

namespace GoMap

/-- The entries that `range m` visits, in the order of the visit. -/
def entries {α : Type} (m : GoMap α) : List (GoString × α) :=
  m.getD []

/-- The keys of `m`. -/
def keys {α : Type} (m : GoMap α) : List GoString :=
  (entries m).map Prod.fst

/-- The index expression `v, ok := m[k]`. -/
def get {α : Type} (m : GoMap α) (k : GoString) : Option α :=
  (entries m).lookup k

/-- A Go map holds a key at most once. -/
def WF {α : Type} (m : GoMap α) : Prop :=
  (keys m).Nodup

end GoMap

/-- The assignment `data[k] = v` on the entries of a non-nil map. -/
def mapSet {α : Type} : List (GoString × α) → GoString → α → List (GoString × α)
  | [], k, v => [(k, v)]
  | (k0, v0) :: rest, k, v =>
    if k0 = k then (k, v) :: rest else (k0, v0) :: mapSet rest k v

/-- The loop `for k, v := range m do data[k] = v`. -/
def rangeSet {α : Type} (data : List (GoString × α)) (m : List (GoString × α)) :
    List (GoString × α) :=
  m.foldl (fun d kv => mapSet d kv.1 kv.2) data

/-- The `Environment` struct. -/
structure Environment where
  Vars : GoMap Value
  GostCommand : GoString

/-- The `Config` struct. -/
structure Config where
  Defaults : GoMap Value
  Environments : GoMap Environment

/-! ## package fmt -/

namespace fmt

/-- Sorted insertion of a printed map entry by key. -/
def insertEntry (kv : GoString × GoString) :
    List (GoString × GoString) → List (GoString × GoString)
  | [] => [kv]
  | e :: rest => if kv.1 ≤ e.1 then kv :: e :: rest else e :: insertEntry kv rest

/-- The text that `fmt.Fprint` writes for a value inside a slice or map
to the template output: a nil interface prints as `<nil>`, a slice as
`[a b]`, a map as `map[k:v]` with the keys sorted. -/
def Sprint : Value → GoString
  | .null => "<nil>".toList
  | .bool true => "true".toList
  | .bool false => "false".toList
  | .int i => (toString i).toList
  | .str s => s
  | .seq elems => "[".toList ++ strings.Join (SprintList elems) " ".toList ++ "]".toList
  | .map es =>
    "map[".toList ++
      strings.Join (((SprintEntries es).foldr insertEntry []).map
        (fun kv => kv.1 ++ ":".toList ++ kv.2)) " ".toList ++ "]".toList
where
  /-- The elements of a slice, printed. -/
  SprintList : List Value → List GoString
    | [] => []
    | v :: vs => Sprint v :: SprintList vs
  /-- The entries of a map, printed. -/
  SprintEntries : List (GoString × Value) → List (GoString × GoString)
    | [] => []
    | (k, v) :: rest => (k, Sprint v) :: SprintEntries rest

end fmt

/-! ## package text/template -/

/-- What `generateCommand` uses of a template engine: `Parse` on the command
template and `Execute` on the template data, each with its error. -/
structure TemplateEngine where
  /-- The parsed template. -/
  Tmpl : Type
  /-- The call `template.New("gost").Parse(text)`. -/
  Parse : GoString → Except GoString Tmpl
  /-- The call `tmpl.Execute(&buf, data)`, returning the buffer on success. -/
  Execute : Tmpl → List (GoString × Value) → Except GoString GoString

namespace template

/-- The nodes of a parsed template in the modelled fragment: literal text and
the field action that looks a name up in the data map. -/
inductive Node
  | text (s : GoString)
  | field (name : GoString)
  deriving DecidableEq

/-- The lexer states of the modelled fragment. -/
inductive lexState
  | inText
  | afterLeftDelim
  | inField
  | beforeRightDelim
  deriving DecidableEq

/-- The lexer's `isSpace` inside an action. -/
def isSpace (r : Char) : Bool :=
  r == ' ' || r == '\t' || r == '\r' || r == '\n'

/-- Closes the pending text: the lexer emits a text item only when it is not
empty. -/
def flushText (nodes : List Node) (cur : GoString) : List Node :=
  if cur = [] then nodes else nodes ++ [Node.text cur]

/-- The lexer and parser of `text/template` on the fragment "literal text and
actions of the form left delimiter, spaces, dot, name, spaces, right
delimiter", the name being ASCII letters, digits and underscores and not
starting with a digit.  `cur` is the text or the name being read.  The result
is `none` for a template outside this fragment. -/
def lex : lexState → GoString → List Node → GoString → Option (List Node)
  | .inText, cur, nodes, [] => some (flushText nodes cur)
  | .inText, cur, nodes, [c] => some (flushText nodes (cur ++ [c]))
  | .inText, cur, nodes, c :: d :: rest =>
    if c = '\x7b' ∧ d = '\x7b' then lex .afterLeftDelim [] (flushText nodes cur) rest
    else lex .inText (cur ++ [c]) nodes (d :: rest)
  | .afterLeftDelim, _, _, [] => none
  | .afterLeftDelim, _, _, [_] => none
  | .afterLeftDelim, cur, nodes, c :: d :: rest =>
    if isSpace c then lex .afterLeftDelim cur nodes (d :: rest)
    else if c = '.' ∧ os.isAlphaNum d ∧ ¬ (d.toNat ≥ 48 ∧ d.toNat ≤ 57) then
      lex .inField [] nodes (d :: rest)
    else none
  | .inField, _, _, [] => none
  | .inField, _, _, [_] => none
  | .inField, cur, nodes, c :: d :: rest =>
    if os.isAlphaNum c then lex .inField (cur ++ [c]) nodes (d :: rest)
    else if isSpace c then lex .beforeRightDelim cur nodes (d :: rest)
    else if c = '\x7d' ∧ d = '\x7d' then lex .inText [] (nodes ++ [Node.field cur]) rest
    else none
  | .beforeRightDelim, _, _, [] => none
  | .beforeRightDelim, _, _, [_] => none
  | .beforeRightDelim, cur, nodes, c :: d :: rest =>
    if isSpace c then lex .beforeRightDelim cur nodes (d :: rest)
    else if c = '\x7d' ∧ d = '\x7d' then lex .inText [] (nodes ++ [Node.field cur]) rest
    else none

/-- The text that executing a node writes.  A field whose key is missing
from the data map, or whose value is a nil interface, evaluates to the
invalid value, for which `printableValue` returns `<no value>`; any other
value is written by `fmt.Fprint`. -/
def execNode (data : List (GoString × Value)) : Node → GoString
  | .text s => s
  | .field name =>
    match data.lookup name with
    | none => "<no value>".toList
    | some .null => "<no value>".toList
    | some v => fmt.Sprint v

/-- Executes the nodes in order, appending to the buffer. -/
def execNodes (data : List (GoString × Value)) (nodes : List Node) : GoString :=
  (nodes.map (execNode data)).flatten

/-- The engine `text/template`: on a template of the modelled fragment the
lexer and the execution above; on any other template the engine `beyond`,
which stands for the part of `text/template` that is not modelled and about
which nothing is assumed.  Inside the fragment the execution is a sequence of
map lookups written to a buffer, which cannot fail. -/
def engine (beyond : TemplateEngine) : TemplateEngine where
  Tmpl := List Node ⊕ beyond.Tmpl
  Parse := fun text =>
    match lex .inText [] [] text with
    | some nodes => .ok (.inl nodes)
    | none =>
      match beyond.Parse text with
      | .ok tmpl => .ok (.inr tmpl)
      | .error err => .error err
  Execute := fun tmpl data =>
    match tmpl with
    | .inl nodes => .ok (execNodes data nodes)
    | .inr tmpl => beyond.Execute tmpl data

/-- An engine that parses nothing.  It takes the place of `beyond` in the
closed examples, whose templates all lie inside the fragment, so that it is
never consulted there. -/
def fragmentOnly : TemplateEngine where
  Tmpl := Empty
  Parse := fun _ => .error []
  Execute := fun tmpl _ => nomatch tmpl

/-- The template text that writes a node: a text as it is, a field as the
action made of the left delimiter, a dot, the name and the right delimiter. -/
def Node.source : Node → GoString
  | .text s => s
  | .field name => "\x7b\x7b.".toList ++ name ++ "\x7d\x7d".toList

/-- The template text that writes a sequence of nodes. -/
def sourceOf (nodes : List Node) : GoString :=
  (nodes.map Node.source).flatten

/-- A literal text that holds no left delimiter and does not end in an open
brace (which could pair with the brace of a following action). -/
def plainText : GoString → Bool
  | [] => true
  | [c] => c != '\x7b'
  | c :: d :: rest => !(c == '\x7b' && d == '\x7b') && plainText (d :: rest)

/-- A field name of the fragment: not empty, ASCII letters, digits and
underscores, not starting with a digit. -/
def validField (name : GoString) : Bool :=
  match name with
  | [] => false
  | c :: _ => !(decide (c.toNat ≥ 48) && decide (c.toNat ≤ 57)) && name.all os.isAlphaNum

/-- A node whose source the lexer reads back as this node. -/
def Node.written : Node → Bool
  | .text s => plainText s
  | .field name => validField name

end template

/-! ## main.go -/

/-- The first part of `parseArguments`: the loop that trims every line of
`cmd` and writes the non-empty ones into `fullCmd`, a space before each but
the first.  The accumulator is the content of the builder. -/
def joinLines (cmd : GoString) : GoString :=
  (strings.Split cmd '\n').foldl
    (fun fullCmd line =>
      let line := strings.TrimSpace line
      if line ≠ [] then
        (if fullCmd.length > 0 then fullCmd ++ " ".toList else fullCmd) ++ line
      else fullCmd)
    []

/-- The function `parseArguments`: the words of the joined line according to
`shlex.Split`, or `strings.Fields` of the joined line when shlex fails. -/
def parseArguments (cmd : GoString) : List GoString :=
  let fullCmd := joinLines cmd
  match shlex.Split fullCmd with
  | (args, none) => args
  | (_, some _) => strings.Fields fullCmd

/-- The template data of `generateCommand`: a fresh map, the defaults
written into it when they are not nil, then the environment's vars. -/
def templateData (config : Config) (env : Environment) : List (GoString × Value) :=
  let data : List (GoString × Value) := []
  let data := match config.Defaults with
    | some defaults => rangeSet data defaults
    | none => data
  let data := match env.Vars with
    | some vars => rangeSet data vars
    | none => data
  data

/-- The function `generateCommand`, over a template engine `T` and a process
environment `environ`. -/
def generateCommand (T : TemplateEngine) (environ : GoString → Option GoString)
    (config : Config) (envName : GoString) : Except GoString (List GoString) :=
  match GoMap.get config.Environments envName with
  | none =>
    let availableEnvs := GoMap.keys config.Environments
    .error ("environment \x27".toList ++ envName ++ "\x27 not found (available: ".toList ++
      strings.Join availableEnvs ", ".toList ++ ")".toList)
  | some env =>
    if env.GostCommand = [] then
      .error ("environment \x27".toList ++ envName ++
        "\x27 has no gost_command defined".toList)
    else
      let data := templateData config env
      match T.Parse env.GostCommand with
      | .error err => .error ("parsing template: ".toList ++ err)
      | .ok tmpl =>
        match T.Execute tmpl data with
        | .error err => .error ("executing template: ".toList ++ err)
        | .ok buf =>
          let expanded := os.ExpandEnv environ buf
          let args := parseArguments expanded
          if args.length = 0 then .error "no arguments generated from template".toList
          else .ok args

/-- The line that `main` prints for the arguments: `strings.Join(args, " ")`,
to which `fmt.Println` adds the newline. -/
def printedLine (args : List GoString) : GoString :=
  strings.Join args " ".toList

/-- The bytes that `main` writes to standard output on success. -/
def mainStdout (args : List GoString) : GoString :=
  printedLine args ++ "\n".toList

/-- The configuration of the end-to-end example. -/
def exampleConfig : Config where
  Defaults := some [("port".toList, .int 8080)]
  Environments := some [("staging".toList,
    { Vars := some [("host".toList, .str "example.com".toList)],
      GostCommand := "-H \x7b\x7b.host\x7d\x7d -p \x7b\x7b.port\x7d\x7d".toList })]

/-- A configuration whose defaults and whose environment `prod` both set the
key `opts`, each to a mapping, and whose defaults alone set `port`. -/
def collisionConfig : Config where
  Defaults := some [("opts".toList, .map [("a".toList, .int 1), ("b".toList, .int 2)]),
    ("port".toList, .int 8080)]
  Environments := some [("prod".toList,
    { Vars := some [("opts".toList, .map [("a".toList, .int 3)])],
      GostCommand := "-p \x7b\x7b.port\x7d\x7d".toList }),
    ("dev".toList, { Vars := none, GostCommand := [] })]

/-- The joined line in the words of the specification: every line trimmed,
the blank lines dropped, the remaining lines joined with single spaces. -/
def specJoinLines (s : GoString) : GoString :=
  strings.Join (((strings.Split s '\n').map strings.TrimSpace).filter
    (fun l => decide (l ≠ []))) " ".toList

/-- The tokenizer in the words of the specification, on a single line: the
shell words, or the white-space split when the quoting is malformed. -/
def specTokenize (line : GoString) : List GoString :=
  match shlex.Split line with
  | (args, none) => args
  | (_, some _) => strings.Fields line

/-- The order of the specification: join the lines of the rendered string,
then expand the environment references, then tokenize. -/
def specExpandTokenize (environ : GoString → Option GoString) (rendered : GoString) :
    List GoString :=
  specTokenize (os.ExpandEnv environ (specJoinLines rendered))

/-- A configuration whose environment `banner` quotes a reference to the
process environment variable `X`. -/
def quotedRefConfig : Config where
  Defaults := none
  Environments := some [("banner".toList,
    { Vars := none, GostCommand := "-H \x22$X\x22".toList })]

/-- A process environment in which `X` holds a newline followed by a space. -/
def newlineEnviron : GoString → Option GoString :=
  fun k => if k = "X".toList then some "a\n b".toList else none

/-- A configuration whose environment `bare` refers to the variable `host`,
which neither the defaults nor the vars set. -/
def missingVarConfig : Config where
  Defaults := some [("port".toList, .int 8080)]
  Environments := some [("bare".toList,
    { Vars := some [], GostCommand := "-H \x7b\x7b.host\x7d\x7d".toList })]

/-- The configuration of the end-to-end example without the variable `host`:
the template refers to `host` and `port`, and only `port` is set. -/
def twoRefConfig : Config where
  Defaults := some [("port".toList, .int 8080)]
  Environments := some [("staging".toList,
    { Vars := some [],
      GostCommand := "-H \x7b\x7b.host\x7d\x7d -p \x7b\x7b.port\x7d\x7d".toList })]

/-- A process environment that sets `A` and nothing else. -/
def setAEnviron : GoString → Option GoString :=
  fun k => if k = "A".toList then some "val".toList else none

/-- The value of `k` in `over` when it is there, otherwise its value in
`base`: how a lookup in an overlay of two maps resolves. -/
def overlay {α : Type} (over base : Option α) : Option α :=
  match over with
  | some v => some v
  | none => base

/-! ## Lemmas on maps -/

theorem lookup_mapSet {α : Type} (d : List (GoString × α)) (k : GoString) (v : α)
    (k' : GoString) :
    (mapSet d k v).lookup k' = if k' = k then some v else d.lookup k' := by
  induction d with
  | nil =>
    by_cases h : k' = k
    · simp [mapSet, List.lookup, h]
    · have : (k' == k) = false := by simpa using h
      simp [mapSet, List.lookup, h, this]
  | cons e rest ih =>
    obtain ⟨k0, v0⟩ := e
    by_cases h0 : k0 = k
    · subst h0
      by_cases h : k' = k0
      · simp [mapSet, List.lookup, h]
      · have : (k' == k0) = false := by simpa using h
        simp [mapSet, List.lookup, h, this]
    · by_cases h : k' = k0
      · subst h
        simp [mapSet, List.lookup, h0]
      · have : (k' == k0) = false := by simpa using h
        simp [mapSet, List.lookup, h0, this, ih]

theorem lookup_eq_none_of_not_mem {α : Type} (m : List (GoString × α)) (k : GoString)
    (h : k ∉ m.map Prod.fst) : m.lookup k = none := by
  induction m with
  | nil => rfl
  | cons e rest ih =>
    obtain ⟨k0, v0⟩ := e
    simp only [List.map_cons, List.mem_cons, not_or] at h
    have : (k == k0) = false := by simpa using h.1
    simp [List.lookup, this, ih h.2]

theorem mem_keys_of_lookup {α : Type} (m : List (GoString × α)) (k : GoString) (v : α)
    (h : m.lookup k = some v) : k ∈ m.map Prod.fst := by
  by_contra hk
  rw [lookup_eq_none_of_not_mem m k hk] at h
  cases h

theorem lookup_ne_none_of_mem_keys {α : Type} (m : List (GoString × α)) (k : GoString)
    (h : k ∈ m.map Prod.fst) : m.lookup k ≠ none := by
  obtain ⟨⟨k1, v1⟩, hmem, hk1⟩ := List.mem_map.1 h
  simp only at hk1
  subst hk1
  intro hnone
  have := List.lookup_eq_none_iff.1 hnone (k1, v1) hmem
  simp at this

theorem lookup_rangeSet {α : Type} (m d : List (GoString × α)) (k : GoString)
    (hm : (m.map Prod.fst).Nodup) :
    (rangeSet d m).lookup k = overlay (m.lookup k) (d.lookup k) := by
  induction m generalizing d with
  | nil => rfl
  | cons e rest ih =>
    obtain ⟨k0, v0⟩ := e
    simp only [List.map_cons, List.nodup_cons] at hm
    have hstep : rangeSet d ((k0, v0) :: rest) = rangeSet (mapSet d k0 v0) rest := rfl
    rw [hstep, ih _ hm.2, lookup_mapSet]
    by_cases h : k = k0
    · subst h
      rw [lookup_eq_none_of_not_mem rest k hm.1]
      simp [List.lookup, overlay]
    · have : (k == k0) = false := by simpa using h
      simp [List.lookup, this, h]

theorem lookup_rangeSet_none {α : Type} (m d : List (GoString × α)) (k : GoString)
    (hm : m.lookup k = none) (hd : d.lookup k = none) : (rangeSet d m).lookup k = none := by
  induction m generalizing d with
  | nil => exact hd
  | cons e rest ih =>
    obtain ⟨k0, v0⟩ := e
    have hstep : rangeSet d ((k0, v0) :: rest) = rangeSet (mapSet d k0 v0) rest := rfl
    by_cases h : k = k0
    · subst h
      simp [List.lookup] at hm
    · have hb : (k == k0) = false := by simpa using h
      rw [hstep]
      apply ih
      · rw [List.lookup, hb] at hm
        exact hm
      · rw [lookup_mapSet, if_neg h]
        exact hd

theorem templateData_lookup (config : Config) (env : Environment) (k : GoString)
    (hd : GoMap.WF config.Defaults) (hv : GoMap.WF env.Vars) :
    (templateData config env).lookup k =
      overlay (GoMap.get env.Vars k) (GoMap.get config.Defaults k) := by
  obtain ⟨defaults, envs⟩ := config
  obtain ⟨vars, cmd⟩ := env
  cases defaults with
  | none =>
    cases vars with
    | none => rfl
    | some vs => exact lookup_rangeSet vs [] k hv
  | some ds =>
    cases vars with
    | none =>
      have := lookup_rangeSet ds [] k hd
      simp only [templateData, GoMap.get, GoMap.entries, Option.getD]
      rw [this]
      cases ds.lookup k <;> rfl
    | some vs =>
      have h1 := lookup_rangeSet ds [] k hd
      have h2 := lookup_rangeSet vs (rangeSet [] ds) k hv
      simp only [templateData, GoMap.get, GoMap.entries, Option.getD]
      rw [h2, h1]
      cases vs.lookup k with
      | some v => rfl
      | none => cases ds.lookup k <;> rfl

/-! ## Lemmas on `strings.Join` -/

theorem Join_cons_cons (a b : GoString) (rest : List GoString) (sep : GoString) :
    strings.Join (a :: b :: rest) sep = a ++ sep ++ strings.Join (b :: rest) sep := rfl

theorem infix_Join_of_mem (l : List GoString) (sep name : GoString) (h : name ∈ l) :
    name <:+: strings.Join l sep := by
  induction l with
  | nil => cases h
  | cons a rest ih =>
    cases rest with
    | nil =>
      simp only [List.mem_singleton] at h
      subst h
      exact List.infix_refl _
    | cons b rest' =>
      rw [Join_cons_cons]
      rcases List.mem_cons.1 h with h | h
      · subst h
        exact ⟨[], sep ++ strings.Join (b :: rest') sep, by simp⟩
      · obtain ⟨s, t, hst⟩ := ih h
        exact ⟨a ++ sep ++ s, t, by simp [← hst]⟩

theorem count_eq_one_of_nodup (l : List GoString) (a : GoString) (hn : l.Nodup)
    (h : a ∈ l) : l.count a = 1 := by
  induction l with
  | nil => cases h
  | cons b rest ih =>
    rw [List.nodup_cons] at hn
    rw [List.count_cons]
    rcases List.mem_cons.1 h with h | h
    · subst h
      rw [List.count_eq_zero_of_not_mem hn.1]
      simp
    · have hne : b ≠ a := by
        rintro rfl
        exact hn.1 h
      have hb : (b == a) = false := by simpa using hne
      rw [ih hn.2 h, hb]
      rfl

/-! ## The claims on the lookup of the environment -/

/-- C1: the template data of `generateCommand` is the defaults overlaid by the
selected environment's vars: looking a key up gives the value in vars when the
key is there, otherwise the value in defaults, otherwise nothing (also for nil
maps); so its key set is the union of the two key sets, and `generateCommand`
executes the template on exactly this data. -/
theorem C1_template_data_is_overlay (config : Config) (envName : GoString)
    (env : Environment)
    (henv : GoMap.get config.Environments envName = some env)
    (hd : GoMap.WF config.Defaults) (hv : GoMap.WF env.Vars) :
    (∀ k, (templateData config env).lookup k =
      overlay (GoMap.get env.Vars k) (GoMap.get config.Defaults k)) ∧
    (∀ k, ((templateData config env).lookup k).isSome = true ↔
      (k ∈ GoMap.keys config.Defaults ∨ k ∈ GoMap.keys env.Vars)) ∧
    (∀ (T : TemplateEngine) (environ : GoString → Option GoString) (tmpl : T.Tmpl),
      env.GostCommand ≠ [] → T.Parse env.GostCommand = .ok tmpl →
      generateCommand T environ config envName =
        match T.Execute tmpl (templateData config env) with
        | .error err => .error ("executing template: ".toList ++ err)
        | .ok buf =>
          if (parseArguments (os.ExpandEnv environ buf)).length = 0 then
            .error "no arguments generated from template".toList
          else .ok (parseArguments (os.ExpandEnv environ buf))) := by
  refine ⟨fun k => templateData_lookup config env k hd hv, fun k => ?_, ?_⟩
  · rw [templateData_lookup config env k hd hv]
    constructor
    · intro h
      cases hvk : GoMap.get env.Vars k with
      | some v => exact Or.inr (mem_keys_of_lookup _ k v hvk)
      | none =>
        rw [hvk] at h
        cases hdk : GoMap.get config.Defaults k with
        | some v => exact Or.inl (mem_keys_of_lookup _ k v hdk)
        | none =>
          rw [hdk] at h
          cases h
    · intro h
      cases hvk : GoMap.get env.Vars k with
      | some v => rfl
      | none =>
        cases hdk : GoMap.get config.Defaults k with
        | some v => rfl
        | none =>
          exfalso
          rcases h with h | h
          · exact lookup_ne_none_of_mem_keys _ k h hdk
          · exact lookup_ne_none_of_mem_keys _ k h hvk
  · intro T environ tmpl hne hparse
    simp only [generateCommand, henv, hparse, if_neg hne]

/-- Witness of C1 on `collisionConfig`: the key `opts`, set in both maps,
resolves to the whole value of the environment, the key `port` to the
default. -/
theorem C1_template_data_is_overlay_witness :
    (templateData collisionConfig
        { Vars := some [("opts".toList, .map [("a".toList, .int 3)])],
          GostCommand := "-p \x7b\x7b.port\x7d\x7d".toList }).lookup "opts".toList =
      some (.map [("a".toList, .int 3)]) ∧
    (templateData collisionConfig
        { Vars := some [("opts".toList, .map [("a".toList, .int 3)])],
          GostCommand := "-p \x7b\x7b.port\x7d\x7d".toList }).lookup "port".toList =
      some (.int 8080) := by
  have h := (C1_template_data_is_overlay collisionConfig "prod".toList
    { Vars := some [("opts".toList, .map [("a".toList, .int 3)])],
      GostCommand := "-p \x7b\x7b.port\x7d\x7d".toList }
    (by rfl) (by unfold GoMap.WF; decide) (by unfold GoMap.WF; decide)).1
  exact ⟨(h "opts".toList).trans (by rfl), (h "port".toList).trans (by rfl)⟩

/-- C2: when the requested name is not a key of the environments mapping,
`generateCommand` returns an error and no argument list; the message is
`environment (name) not found (available: (names))` where the names are the
keys of the mapping joined with a comma and a space, so it contains the words
"not found", the requested name and every defined name, each listed exactly
once. -/
theorem C2_unknown_environment_lists_all (T : TemplateEngine)
    (environ : GoString → Option GoString) (config : Config) (envName : GoString)
    (hmiss : GoMap.get config.Environments envName = none)
    (hwf : GoMap.WF config.Environments) :
    ∃ msg, generateCommand T environ config envName = .error msg ∧
      msg = "environment \x27".toList ++ envName ++ "\x27 not found (available: ".toList ++
        strings.Join (GoMap.keys config.Environments) ", ".toList ++ ")".toList ∧
      "not found".toList <:+: msg ∧ envName <:+: msg ∧
      ∀ name env, GoMap.get config.Environments name = some env →
        name <:+: msg ∧ (GoMap.keys config.Environments).count name = 1 := by
  refine ⟨_, ?_, rfl, ?_, ?_, ?_⟩
  · simp only [generateCommand, hmiss]
  · refine ⟨"environment \x27".toList ++ envName ++ "\x27 ".toList,
      " (available: ".toList ++ strings.Join (GoMap.keys config.Environments) ", ".toList ++
        ")".toList, ?_⟩
    have : "\x27 not found (available: ".toList =
      "\x27 ".toList ++ ("not found".toList ++ " (available: ".toList) := by decide
    rw [this]
    simp only [List.append_assoc]
  · exact ⟨"environment \x27".toList,
      "\x27 not found (available: ".toList ++
        strings.Join (GoMap.keys config.Environments) ", ".toList ++ ")".toList,
      by simp only [List.append_assoc]⟩
  · intro name env hget
    have hmem : name ∈ GoMap.keys config.Environments :=
      mem_keys_of_lookup _ name env hget
    refine ⟨?_, count_eq_one_of_nodup _ name hwf hmem⟩
    obtain ⟨s, t, hst⟩ := infix_Join_of_mem _ ", ".toList name hmem
    refine ⟨"environment \x27".toList ++ envName ++ "\x27 not found (available: ".toList ++ s,
      t ++ ")".toList, ?_⟩
    rw [← hst]
    simp only [List.append_assoc]

/-- Witness of C2 on `collisionConfig`, asked for the environment `staging`. -/
theorem C2_unknown_environment_lists_all_witness :
    ∃ msg, generateCommand (template.engine template.fragmentOnly) (fun _ => none) collisionConfig
        "staging".toList = .error msg ∧
      msg = "environment \x27".toList ++ "staging".toList ++
        "\x27 not found (available: ".toList ++
        strings.Join (GoMap.keys collisionConfig.Environments) ", ".toList ++ ")".toList ∧
      "not found".toList <:+: msg ∧ "staging".toList <:+: msg ∧
      ∀ name env, GoMap.get collisionConfig.Environments name = some env →
        name <:+: msg ∧ (GoMap.keys collisionConfig.Environments).count name = 1 :=
  C2_unknown_environment_lists_all (template.engine template.fragmentOnly) (fun _ => none) collisionConfig
    "staging".toList (by rfl) (by unfold GoMap.WF; decide)

/-- C3: when the selected environment exists and its command template is the
empty string, `generateCommand` returns the error
`environment (name) has no gost_command defined`, whatever the template
engine, the process environment, the defaults and the vars are. -/
theorem C3_empty_command_template (T : TemplateEngine)
    (environ : GoString → Option GoString) (defaults vars : GoMap Value)
    (envs : GoMap Environment) (envName : GoString)
    (henv : GoMap.get envs envName = some { Vars := vars, GostCommand := [] }) :
    generateCommand T environ { Defaults := defaults, Environments := envs } envName =
      .error ("environment \x27".toList ++ envName ++
        "\x27 has no gost_command defined".toList) := by
  simp only [generateCommand, henv, if_true]

/-- Witness of C3 on the environment `dev` of `collisionConfig`. -/
theorem C3_empty_command_template_witness :
    generateCommand (template.engine template.fragmentOnly) (fun _ => none) collisionConfig "dev".toList =
      .error "environment \x27dev\x27 has no gost_command defined".toList :=
  C3_empty_command_template (template.engine template.fragmentOnly) (fun _ => none) collisionConfig.Defaults none
    collisionConfig.Environments "dev".toList (by rfl)

/-- C4: on the configuration of the end-to-end example, `generateCommand` for
`staging` returns the four arguments `-H`, `example.com`, `-p`, `8080` in
every process environment (and whatever `text/template` does beyond the
modelled fragment), and `main` prints them as `-H example.com -p 8080`. -/
theorem C4_end_to_end_example (beyond : TemplateEngine)
    (environ : GoString → Option GoString) :
    generateCommand (template.engine beyond) environ exampleConfig "staging".toList =
      .ok ["-H".toList, "example.com".toList, "-p".toList, "8080".toList] ∧
    printedLine ["-H".toList, "example.com".toList, "-p".toList, "8080".toList] =
      "-H example.com -p 8080".toList ∧
    mainStdout ["-H".toList, "example.com".toList, "-p".toList, "8080".toList] =
      "-H example.com -p 8080\n".toList :=
  ⟨by rfl, by decide, by decide⟩

/-! ## Lemmas on `os.Expand` -/

theorem expandLoop_fuel_irrel (mapping : GoString → GoString) (n : Nat) :
    ∀ (m : Nat) (s : GoString), s.length ≤ n → s.length ≤ m →
      os.expandLoop mapping n s = os.expandLoop mapping m s := by
  induction n with
  | zero =>
    intro m s hn _
    have hs : s = [] := List.length_eq_zero.1 (Nat.le_zero.1 hn)
    subst hs
    cases m <;> rfl
  | succ n ih =>
    intro m s hn hm
    match s, m, hn, hm with
    | [], m, _, _ => cases m <;> rfl
    | [c], m + 1, _, _ => rfl
    | c :: d :: rest, m + 1, hn, hm =>
      simp only [List.length_cons] at hn hm
      have hdrop : ∀ w, ((d :: rest).drop w).length ≤ rest.length + 1 := by
        intro w
        simp only [List.length_drop, List.length_cons]
        omega
      simp only [os.expandLoop]
      rw [ih m _ (by have := hdrop (os.getShellName (d :: rest)).2; omega)
            (by have := hdrop (os.getShellName (d :: rest)).2; omega),
          ih m (d :: rest) (by simp only [List.length_cons]; omega)
            (by simp only [List.length_cons]; omega)]

theorem expandLoop_fuel (mapping : GoString → GoString) (n : Nat) (s : GoString)
    (h : s.length ≤ n) : os.expandLoop mapping n s = os.Expand s mapping :=
  expandLoop_fuel_irrel mapping n s.length s h (Nat.le_refl _)

theorem Expand_cons_ne (mapping : GoString → GoString) (c : Char) (s : GoString)
    (hc : c ≠ '$') : os.Expand (c :: s) mapping = c :: os.Expand s mapping := by
  cases s with
  | nil => rfl
  | cons d rest =>
    show os.expandLoop mapping (rest.length + 1 + 1) (c :: d :: rest) = _
    simp only [os.expandLoop, if_neg hc]
    rfl

theorem Expand_dollar (mapping : GoString → GoString) (d : Char) (rest : GoString) :
    os.Expand ('$' :: d :: rest) mapping =
      (if (os.getShellName (d :: rest)).1 = [] ∧ (os.getShellName (d :: rest)).2 > 0 then []
       else if (os.getShellName (d :: rest)).1 = [] then ['$']
       else mapping (os.getShellName (d :: rest)).1) ++
        os.Expand ((d :: rest).drop (os.getShellName (d :: rest)).2) mapping := by
  show os.expandLoop mapping (rest.length + 1 + 1) ('$' :: d :: rest) = _
  simp only [os.expandLoop, if_true]
  rw [expandLoop_fuel]
  simp only [List.length_drop, List.length_cons]
  omega

theorem Expand_no_dollar (mapping : GoString → GoString) (s : GoString)
    (h : '$' ∉ s) : os.Expand s mapping = s := by
  induction s with
  | nil => rfl
  | cons c rest ih =>
    simp only [List.mem_cons, not_or] at h
    rw [Expand_cons_ne mapping c rest (fun hc => h.1 hc.symm), ih h.2]

theorem Expand_append_no_dollar (mapping : GoString → GoString) (pre s : GoString)
    (h : '$' ∉ pre) : os.Expand (pre ++ s) mapping = pre ++ os.Expand s mapping := by
  induction pre with
  | nil => rfl
  | cons c rest ih =>
    simp only [List.mem_cons, not_or] at h
    rw [List.cons_append, Expand_cons_ne mapping c _ (fun hc => h.1 hc.symm), ih h.2]
    rfl

theorem takeWhile_append_of_all (p : Char → Bool) (name rest : GoString)
    (hal : ∀ c ∈ name, p c = true) (hrest : ∀ c, rest.head? = some c → p c = false) :
    (name ++ rest).takeWhile p = name := by
  induction name with
  | nil =>
    cases rest with
    | nil => rfl
    | cons r rs =>
      have := hrest r rfl
      simp [List.takeWhile, this]
  | cons c cs ih =>
    have hc := hal c (List.mem_cons_self _ _)
    simp only [List.cons_append, List.takeWhile, hc, List.append_eq]
    rw [ih (fun x hx => hal x (List.mem_cons_of_mem _ hx))]

theorem alphaNum_ne_brace (c : Char) (h : os.isAlphaNum c = true) : c ≠ '\x7b' := by
  rintro rfl
  revert h
  decide

theorem getShellName_plain (name rest : GoString) (hne : name ≠ [])
    (hal : ∀ c ∈ name, os.isAlphaNum c = true)
    (hhd : ∀ c, name.head? = some c → os.isShellSpecialVar c = false)
    (hrest : ∀ c, rest.head? = some c → os.isAlphaNum c = false) :
    os.getShellName (name ++ rest) = (name, name.length) := by
  cases name with
  | nil => exact absurd rfl hne
  | cons d ds =>
    have h1 : d ≠ '\x7b' := alphaNum_ne_brace d (hal d (List.mem_cons_self _ _))
    have h2 := hhd d rfl
    have htw := takeWhile_append_of_all os.isAlphaNum (d :: ds) rest hal hrest
    simp only [List.cons_append] at htw
    simp only [os.getShellName, List.cons_append, if_neg h1, h2, htw]
    simp

theorem scanBrace_closed (name rest : GoString) (hbr : '\x7d' ∉ name) :
    ∀ (i : Nat) (acc : GoString), 1 ≤ i →
      os.scanBrace (name ++ '\x7d' :: rest) i acc =
        if i + name.length = 1 then ([], 2) else (acc ++ name, i + name.length + 1) := by
  induction name with
  | nil =>
    intro i acc hi
    simp only [List.nil_append, os.scanBrace, if_true, List.length_nil, Nat.add_zero,
      List.append_nil]
  | cons c cs ih =>
    intro i acc hi
    simp only [List.mem_cons, not_or] at hbr
    have hc : c ≠ '\x7d' := fun h => hbr.1 h.symm
    simp only [List.cons_append, os.scanBrace, if_neg hc, List.append_eq]
    rw [ih hbr.2 (i + 1) (acc ++ [c]) (by omega)]
    have h1 : ¬ (i + 1 + cs.length = 1) := by omega
    have h2 : ¬ (i + (c :: cs).length = 1) := by simp only [List.length_cons]; omega
    rw [if_neg h1, if_neg h2]
    simp only [List.append_assoc, List.singleton_append, List.length_cons]
    congr 1
    omega

theorem getShellName_braced (name rest : GoString) (hne : name ≠ [])
    (hbr : '\x7d' ∉ name) :
    os.getShellName ('\x7b' :: (name ++ '\x7d' :: rest)) = (name, name.length + 2) := by
  have hscan : os.scanBrace (name ++ '\x7d' :: rest) 1 [] = (name, name.length + 2) := by
    rw [scanBrace_closed name rest hbr 1 [] (Nat.le_refl _)]
    have : ¬ (1 + name.length = 1) := by
      cases name with
      | nil => exact absurd rfl hne
      | cons c cs => simp only [List.length_cons]; omega
    rw [if_neg this]
    simp only [List.nil_append]
    congr 1
    omega
  cases name with
  | nil => exact absurd rfl hne
  | cons c1 cs =>
    cases cs with
    | nil =>
      by_cases hsp : os.isShellSpecialVar c1 = true
      · simp [os.getShellName, hsp]
      · have hsp2 : os.isShellSpecialVar c1 = false := by simpa using hsp
        simp only [List.cons_append, List.nil_append] at hscan ⊢
        simp only [os.getShellName, if_true, hsp2, Bool.false_and]
        exact hscan
    | cons c2 cs2 =>
      simp only [List.mem_cons, not_or] at hbr
      have hc2 : (c2 == '\x7d') = false := by
        have : c2 ≠ '\x7d' := fun h => hbr.2.1 h.symm
        simpa using this
      simp only [List.cons_append] at hscan ⊢
      simp only [os.getShellName, if_true, hc2, Bool.and_false]
      exact hscan

theorem ExpandEnv_plain_ref (environ : GoString → Option GoString)
    (pre name rest : GoString) (hpre : '$' ∉ pre) (hne : name ≠ [])
    (hal : ∀ c ∈ name, os.isAlphaNum c = true)
    (hhd : ∀ c, name.head? = some c → os.isShellSpecialVar c = false)
    (hrest : ∀ c, rest.head? = some c → os.isAlphaNum c = false) :
    os.ExpandEnv environ (pre ++ '$' :: (name ++ rest)) =
      pre ++ os.Getenv environ name ++ os.ExpandEnv environ rest := by
  unfold os.ExpandEnv
  rw [Expand_append_no_dollar _ _ _ hpre]
  have hg := getShellName_plain name rest hne hal hhd hrest
  cases hnr : name ++ rest with
  | nil =>
    cases name with
    | nil => exact absurd rfl hne
    | cons c cs => cases hnr
  | cons d rs =>
    rw [hnr] at hg
    rw [Expand_dollar, hg, ← hnr]
    simp only [hne, false_and, if_false, List.drop_left, List.append_assoc]

theorem ExpandEnv_braced_ref (environ : GoString → Option GoString)
    (pre name rest : GoString) (hpre : '$' ∉ pre) (hne : name ≠ [])
    (hbr : '\x7d' ∉ name) :
    os.ExpandEnv environ (pre ++ '$' :: '\x7b' :: (name ++ '\x7d' :: rest)) =
      pre ++ os.Getenv environ name ++ os.ExpandEnv environ rest := by
  unfold os.ExpandEnv
  rw [Expand_append_no_dollar _ _ _ hpre, Expand_dollar, getShellName_braced name rest hne hbr]
  have hdrop : List.drop (name.length + 2) ('\x7b' :: (name ++ '\x7d' :: rest)) = rest := by
    have : name.length + 2 = (name.length + 1) + 1 := rfl
    rw [this, List.drop_succ_cons]
    have h2 : name ++ '\x7d' :: rest = (name ++ ['\x7d']) ++ rest := by simp
    rw [h2]
    have h3 : name.length + 1 = (name ++ ['\x7d']).length := by simp
    rw [h3, List.drop_left]
  simp only [hne, false_and, if_false, hdrop, List.append_assoc]

theorem getShellName_no_name (d : Char) (rest : GoString) (h1 : d ≠ '\x7b')
    (h2 : os.isShellSpecialVar d = false) (h3 : os.isAlphaNum d = false) :
    os.getShellName (d :: rest) = ([], 0) := by
  simp [os.getShellName, h1, h2, List.takeWhile, h3]

theorem Expand_segments (environ : GoString → Option GoString) (segs : List os.Segment)
    (h : os.readAsWritten segs = true) :
    os.ExpandEnv environ (os.textOf segs) =
      (segs.map (os.Segment.value environ)).flatten := by
  induction segs with
  | nil => rfl
  | cons seg rest ih =>
    have hcons : os.readAsWritten (seg :: rest) =
        (seg.readAs (os.textOf rest) && os.readAsWritten rest) := rfl
    rw [hcons, Bool.and_eq_true] at h
    have ih' := ih h.2
    have hsrc : os.textOf (seg :: rest) = seg.source ++ os.textOf rest := by
      simp [os.textOf]
    have hval : ((seg :: rest).map (os.Segment.value environ)).flatten =
        seg.value environ ++ (rest.map (os.Segment.value environ)).flatten := by
      simp
    rw [hsrc, hval, ← ih']
    have hseg := h.1
    cases seg with
    | lit c =>
      by_cases hc : c = '$'
      · subst hc
        cases hrest : os.textOf rest with
        | nil => rfl
        | cons d r =>
          have hd : (¬ d = '\x7b' ∧ os.isShellSpecialVar d = false) ∧
              os.isAlphaNum d = false := by
            simpa [os.Segment.readAs, hrest] using hseg
          show os.Expand ('$' :: d :: r) _ = _
          rw [Expand_dollar, getShellName_no_name d r hd.1.1 hd.1.2 hd.2]
          rfl
      · exact Expand_cons_ne _ c _ hc
    | plain name =>
      cases name with
      | nil => simp [os.Segment.readAs] at hseg
      | cons n ns =>
        have hp : (os.isShellSpecialVar n = false ∧ os.isAlphaNum n = true ∧
            ∀ x ∈ ns, os.isAlphaNum x = true) ∧
            (match os.textOf rest with
              | [] => true
              | d :: _ => !os.isAlphaNum d) = true := by
          simpa [os.Segment.readAs] using hseg
        have hal : ∀ c ∈ n :: ns, os.isAlphaNum c = true := by
          intro c hc
          rcases List.mem_cons.1 hc with rfl | hc
          · exact hp.1.2.1
          · exact hp.1.2.2 c hc
        have hhd : ∀ c, (n :: ns).head? = some c → os.isShellSpecialVar c = false := by
          intro c hc
          simp only [List.head?_cons, Option.some.injEq] at hc
          subst hc
          exact hp.1.1
        have hafter : ∀ c, (os.textOf rest).head? = some c → os.isAlphaNum c = false := by
          intro c hc
          cases hrest : os.textOf rest with
          | nil => rw [hrest] at hc; cases hc
          | cons d r =>
            rw [hrest] at hc
            simp only [List.head?_cons, Option.some.injEq] at hc
            subst hc
            have := hp.2
            rw [hrest] at this
            simpa using this
        have := ExpandEnv_plain_ref environ [] (n :: ns) (os.textOf rest) (by simp)
          (List.cons_ne_nil _ _) hal hhd hafter
        simpa [os.Segment.source, os.Segment.value] using this
    | braced name =>
      have hb : name ≠ [] ∧ '\x7d' ∉ name := by
        simpa [os.Segment.readAs, List.isEmpty_iff] using hseg
      have := ExpandEnv_braced_ref environ [] name (os.textOf rest) (by simp) hb.1 hb.2
      simpa [os.Segment.source, os.Segment.value] using this

/-- C9: the expansion step is total: the loop of `os.Expand` ends within
`len(s)` turns with a string, never an error; a string without a dollar sign
comes back unchanged; and every reference `$NAME` or `${NAME}` to a variable
that is unset in the process environment is replaced by the empty string,
wherever it stands in a string written as literal runes and references:
after set or unset variables and after literal dollar signs as well. -/
theorem C9_expansion_total (environ : GoString → Option GoString) :
    (∀ (s : GoString) (n : Nat), s.length ≤ n →
      os.expandLoop (os.Getenv environ) n s = os.ExpandEnv environ s) ∧
    (∀ s : GoString, '$' ∉ s → os.ExpandEnv environ s = s) ∧
    (∀ pre name rest : GoString, '$' ∉ pre → name ≠ [] →
      (∀ c ∈ name, os.isAlphaNum c = true) →
      (∀ c, name.head? = some c → os.isShellSpecialVar c = false) →
      (∀ c, rest.head? = some c → os.isAlphaNum c = false) →
      environ name = none →
      os.ExpandEnv environ (pre ++ '$' :: (name ++ rest)) =
        pre ++ os.ExpandEnv environ rest) ∧
    (∀ pre name rest : GoString, '$' ∉ pre → name ≠ [] → '\x7d' ∉ name →
      environ name = none →
      os.ExpandEnv environ (pre ++ '$' :: '\x7b' :: (name ++ '\x7d' :: rest)) =
        pre ++ os.ExpandEnv environ rest) ∧
    (∀ segs : List os.Segment, os.readAsWritten segs = true →
      os.ExpandEnv environ (os.textOf segs) =
        (segs.map (os.Segment.value environ)).flatten) ∧
    (∀ name : GoString, environ name = none →
      os.Segment.value environ (.plain name) = [] ∧
      os.Segment.value environ (.braced name) = []) := by
  refine ⟨fun s n h => expandLoop_fuel _ n s h, fun s h => Expand_no_dollar _ s h, ?_, ?_,
    fun segs h => Expand_segments environ segs h, ?_⟩
  · intro pre name rest hpre hne hal hhd hrest hunset
    rw [ExpandEnv_plain_ref environ pre name rest hpre hne hal hhd hrest]
    simp only [os.Getenv, hunset, Option.getD_none, List.append_nil]
  · intro pre name rest hpre hne hbr hunset
    rw [ExpandEnv_braced_ref environ pre name rest hpre hne hbr]
    simp only [os.Getenv, hunset, Option.getD_none, List.append_nil]
  · intro name hunset
    simp only [os.Segment.value, os.Getenv, hunset, Option.getD_none, and_self]

/-- Witness of C9: in the empty process environment `$HOME` and `${X}` are
replaced by the empty string; and in an environment that sets `A` only, the
unset references `$U` and `${V}` are replaced by the empty string after the
set variable `A` and after a literal dollar sign. -/
theorem C9_expansion_total_witness :
    os.ExpandEnv (fun _ => none) "-d $HOME/x".toList = "-d /x".toList ∧
    os.ExpandEnv (fun _ => none) "-d $\x7bX\x7d.y".toList = "-d .y".toList ∧
    os.ExpandEnv setAEnviron "-x $A -y $U 5$ $\x7bV\x7dz $".toList =
      "-x val -y  5$ z $".toList :=
  ⟨((C9_expansion_total (fun _ => none)).2.2.1 "-d ".toList "HOME".toList "/x".toList
      (by decide) (by decide) (by decide) (by decide) (by decide) rfl).trans (by decide),
   ((C9_expansion_total (fun _ => none)).2.2.2.1 "-d ".toList "X".toList ".y".toList
      (by decide) (by decide) (by decide) rfl).trans (by decide),
   (congrArg (os.ExpandEnv setAEnviron)
      (by decide : "-x $A -y $U 5$ $\x7bV\x7dz $".toList =
        os.textOf (os.lits "-x ".toList ++ [os.Segment.plain "A".toList] ++
          os.lits " -y ".toList ++ [os.Segment.plain "U".toList] ++ os.lits " 5$ ".toList ++
          [os.Segment.braced "V".toList] ++ os.lits "z $".toList))).trans
    (((C9_expansion_total setAEnviron).2.2.2.2.1
      (os.lits "-x ".toList ++ [os.Segment.plain "A".toList] ++ os.lits " -y ".toList ++
        [os.Segment.plain "U".toList] ++ os.lits " 5$ ".toList ++
        [os.Segment.braced "V".toList] ++ os.lits "z $".toList)
      (by decide)).trans (by decide))⟩

/-! ## Lemmas on `strings.Fields` -/

theorem fieldsAux_word (f : Char → Bool) (w : GoString) (hw : ∀ c ∈ w, f c = false) :
    ∀ (rest cur : GoString),
      strings.fieldsAux f (w ++ rest) cur = strings.fieldsAux f rest (cur ++ w) := by
  induction w with
  | nil => intro rest cur; simp
  | cons c cs ih =>
    intro rest cur
    have hc := hw c (List.mem_cons_self _ _)
    rw [List.cons_append, strings.fieldsAux]
    simp only [hc, Bool.false_eq_true, if_false]
    rw [ih (fun x hx => hw x (List.mem_cons_of_mem _ hx))]
    simp

theorem fieldsAux_sep (f : Char → Bool) (c : Char) (rest cur : GoString)
    (hc : f c = true) (hcur : cur ≠ []) :
    strings.fieldsAux f (c :: rest) cur = cur :: strings.fieldsAux f rest [] := by
  rw [strings.fieldsAux]
  simp only [hc, if_true, if_neg hcur]

theorem fieldsAux_ne_nil (f : Char → Bool) :
    ∀ (s cur : GoString), cur ≠ [] → strings.fieldsAux f s cur ≠ [] := by
  intro s
  induction s with
  | nil =>
    intro cur hcur
    simp only [strings.fieldsAux, if_neg hcur]
    exact List.cons_ne_nil _ _
  | cons c cs ih =>
    intro cur hcur
    rw [strings.fieldsAux]
    by_cases hc : f c = true
    · simp only [hc, if_true, if_neg hcur]
      exact List.cons_ne_nil _ _
    · simp only [hc, if_false]
      exact ih _ (by simp)

theorem fieldsAux_fields (f : Char → Bool) :
    ∀ (s cur : GoString), (∀ c ∈ cur, f c = false) →
      ∀ x ∈ strings.fieldsAux f s cur, x ≠ [] ∧ ∀ c ∈ x, f c = false := by
  intro s
  induction s with
  | nil =>
    intro cur hcur x hx
    by_cases h : cur = []
    · simp [strings.fieldsAux, h] at hx
    · simp only [strings.fieldsAux, if_neg h, List.mem_singleton] at hx
      subst hx
      exact ⟨h, hcur⟩
  | cons c cs ih =>
    intro cur hcur x hx
    rw [strings.fieldsAux] at hx
    by_cases hc : f c = true
    · simp only [hc, if_true] at hx
      by_cases h : cur = []
      · rw [if_pos h] at hx
        exact ih [] (by simp) x hx
      · rw [if_neg h] at hx
        rcases List.mem_cons.1 hx with hx | hx
        · subst hx
          exact ⟨h, hcur⟩
        · exact ih [] (by simp) x hx
    · simp only [hc, if_false] at hx
      have hc2 : f c = false := by simpa using hc
      refine ih (cur ++ [c]) ?_ x hx
      intro y hy
      rcases List.mem_append.1 hy with hy | hy
      · exact hcur y hy
      · simp only [List.mem_singleton] at hy
        subst hy
        exact hc2

theorem FieldsFunc_Join (f : Char → Bool) (hf : f ' ' = true) (args : List GoString)
    (h : ∀ a ∈ args, a ≠ [] ∧ ∀ c ∈ a, f c = false) :
    strings.FieldsFunc (strings.Join args " ".toList) f = args := by
  induction args with
  | nil => rfl
  | cons a rest ih =>
    have ha := h a (List.mem_cons_self _ _)
    cases rest with
    | nil =>
      show strings.fieldsAux f a [] = [a]
      have := fieldsAux_word f a ha.2 [] []
      simp only [List.append_nil, List.nil_append] at this
      rw [this]
      simp only [strings.fieldsAux, if_neg ha.1]
    | cons b rest' =>
      have ih' := ih (fun x hx => h x (List.mem_cons_of_mem _ hx))
      show strings.fieldsAux f (a ++ " ".toList ++ strings.Join (b :: rest') " ".toList) [] = _
      have hsp : a ++ " ".toList ++ strings.Join (b :: rest') " ".toList =
          a ++ (' ' :: strings.Join (b :: rest') " ".toList) := by
        simp [String.toList]
      rw [hsp, fieldsAux_word f a ha.2, List.nil_append, fieldsAux_sep f ' ' _ a hf ha.1]
      exact congrArg (a :: ·) ih'

/-- C10: splitting the line that `main` prints on white space (any set of
separator runes that holds the space, such as `unicode.IsSpace` or the
shell's IFS) gives back the arguments exactly when every argument is
non-empty and free of separator runes. -/
theorem C10_printed_line_round_trip (f : Char → Bool) (hf : f ' ' = true)
    (args : List GoString) :
    strings.FieldsFunc (printedLine args) f = args ↔
      ∀ a ∈ args, a ≠ [] ∧ ∀ c ∈ a, f c = false := by
  constructor
  · intro h a ha
    rw [← h] at ha
    exact fieldsAux_fields f (printedLine args) [] (by simp) a ha
  · intro h
    exact FieldsFunc_Join f hf args h

/-- Witness of C10 with `strings.Fields`: the quoted fragments `"a b"` and
`""` give one argument each, which the split of the printed line does not
give back, whereas `a b` unquoted does round-trip. -/
theorem C10_printed_line_round_trip_witness :
    parseArguments "\x22a b\x22".toList = ["a b".toList] ∧
    strings.Fields (printedLine ["a b".toList]) ≠ ["a b".toList] ∧
    parseArguments "\x22\x22".toList = [[]] ∧
    strings.Fields (printedLine [[]]) ≠ [[]] ∧
    strings.Fields (printedLine ["a".toList, "b".toList]) = ["a".toList, "b".toList] :=
  ⟨by decide,
   fun h => absurd ((C10_printed_line_round_trip unicode.IsSpace (by decide)
      ["a b".toList]).1 h) (by decide),
   by decide,
   fun h => absurd ((C10_printed_line_round_trip unicode.IsSpace (by decide) [[]]).1 h)
      (by decide),
   (C10_printed_line_round_trip unicode.IsSpace (by decide) ["a".toList, "b".toList]).2
      (by decide)⟩

/-! ## Lemmas on `strings.TrimSpace`, `strings.Split` and the joined line -/

theorem TrimSpace_head (l : GoString) (c : Char) (t : GoString)
    (h : strings.TrimSpace l = c :: t) : unicode.IsSpace c = false := by
  unfold strings.TrimSpace at h
  have hsuf : ((l.dropWhile unicode.IsSpace).reverse).dropWhile unicode.IsSpace <:+
      (l.dropWhile unicode.IsSpace).reverse := List.dropWhile_suffix _
  have hpre : (((l.dropWhile unicode.IsSpace).reverse).dropWhile unicode.IsSpace).reverse <+:
      l.dropWhile unicode.IsSpace := by
    have := List.reverse_prefix.2 hsuf
    simpa using this
  rw [h] at hpre
  obtain ⟨r, hr⟩ := hpre
  have hhead := List.head?_dropWhile_not unicode.IsSpace l
  rw [← hr] at hhead
  simpa using hhead

theorem TrimSpace_all_space (l : GoString) (h : ∀ c ∈ l, unicode.IsSpace c = true) :
    strings.TrimSpace l = [] := by
  unfold strings.TrimSpace
  have : l.dropWhile unicode.IsSpace = [] := List.dropWhile_eq_nil_iff.2 h
  rw [this]
  rfl

theorem splitAux_mem (sep : Char) :
    ∀ (s cur : GoString), ∀ l ∈ strings.splitAux sep s cur, ∀ c ∈ l, c ∈ cur ∨ c ∈ s := by
  intro s
  induction s with
  | nil =>
    intro cur l hl c hc
    simp only [strings.splitAux, List.mem_singleton] at hl
    subst hl
    exact Or.inl hc
  | cons a rest ih =>
    intro cur l hl c hc
    rw [strings.splitAux] at hl
    by_cases ha : a = sep
    · rw [if_pos ha] at hl
      rcases List.mem_cons.1 hl with hl | hl
      · subst hl
        exact Or.inl hc
      · rcases ih [] l hl c hc with h | h
        · cases h
        · exact Or.inr (List.mem_cons_of_mem _ h)
    · rw [if_neg ha] at hl
      rcases ih (cur ++ [a]) l hl c hc with h | h
      · rcases List.mem_append.1 h with h | h
        · exact Or.inl h
        · simp only [List.mem_singleton] at h
          subst h
          exact Or.inr (List.mem_cons_self _ _)
      · exact Or.inr (List.mem_cons_of_mem _ h)

theorem Join_snoc (P : List GoString) (x sep : GoString) :
    strings.Join (P ++ [x]) sep = if P = [] then x else strings.Join P sep ++ sep ++ x := by
  induction P with
  | nil => rfl
  | cons a rest ih =>
    cases rest with
    | nil => simp [strings.Join]
    | cons b rest' =>
      simp only [List.cons_append] at ih ⊢
      rw [Join_cons_cons, ih, Join_cons_cons]
      simp

theorem Join_eq_nil (P : List GoString) (sep : GoString) (hP : ∀ a ∈ P, a ≠ []) :
    strings.Join P sep = [] ↔ P = [] := by
  cases P with
  | nil => simp [strings.Join]
  | cons a rest =>
    have ha := hP a (List.mem_cons_self _ _)
    cases rest with
    | nil => simp [strings.Join, ha]
    | cons b rest' =>
      rw [Join_cons_cons]
      simp [ha]

theorem joinLines_fold (lines : List GoString) :
    ∀ P : List GoString, (∀ a ∈ P, a ≠ []) →
      lines.foldl
        (fun fullCmd line =>
          let line := strings.TrimSpace line
          if line ≠ [] then
            (if fullCmd.length > 0 then fullCmd ++ " ".toList else fullCmd) ++ line
          else fullCmd)
        (strings.Join P " ".toList) =
      strings.Join (P ++ (lines.map strings.TrimSpace).filter (fun l => decide (l ≠ [])))
        " ".toList := by
  induction lines with
  | nil => intro P _; simp
  | cons line rest ih =>
    intro P hP
    rw [List.foldl_cons]
    by_cases hl : strings.TrimSpace line = []
    · simp only [hl, ne_eq, not_true_eq_false, if_false, List.map_cons, decide_False,
        Bool.false_eq_true, not_false_eq_true, List.filter_cons_of_neg]
      exact ih P hP
    · have hstep : (if (strings.Join P " ".toList).length > 0 then
            strings.Join P " ".toList ++ " ".toList else strings.Join P " ".toList) ++
            strings.TrimSpace line = strings.Join (P ++ [strings.TrimSpace line]) " ".toList := by
        rw [Join_snoc]
        by_cases hPn : P = []
        · subst hPn
          simp [strings.Join]
        · have : strings.Join P " ".toList ≠ [] := fun h => hPn ((Join_eq_nil P _ hP).1 h)
          have hlen : (strings.Join P " ".toList).length > 0 := List.length_pos.2 this
          rw [if_pos hlen, if_neg hPn]
      simp only [ne_eq, hl, not_false_eq_true, if_true, List.map_cons, decide_True,
        List.filter_cons_of_pos]
      rw [hstep, ih (P ++ [strings.TrimSpace line])]
      · simp
      · intro a ha
        rcases List.mem_append.1 ha with ha | ha
        · exact hP a ha
        · simp only [List.mem_singleton] at ha
          subst ha
          exact hl

theorem joinLines_eq_spec (cmd : GoString) : joinLines cmd = specJoinLines cmd := by
  have := joinLines_fold (strings.Split cmd '\n') [] (by simp)
  simpa [joinLines, specJoinLines, strings.Join] using this

theorem joinLines_head (cmd : GoString) (c : Char) (t : GoString)
    (h : joinLines cmd = c :: t) : unicode.IsSpace c = false := by
  rw [joinLines_eq_spec] at h
  unfold specJoinLines at h
  generalize hQ : ((strings.Split cmd '\n').map strings.TrimSpace).filter
    (fun l => decide (l ≠ [])) = Q at h
  have hmem : ∀ q ∈ Q, q ≠ [] ∧ ∃ line, strings.TrimSpace line = q := by
    intro q hq
    rw [← hQ] at hq
    obtain ⟨h1, h2⟩ := List.mem_filter.1 hq
    obtain ⟨line, _, hline⟩ := List.mem_map.1 h1
    exact ⟨by simpa using h2, line, hline⟩
  cases Q with
  | nil => simp [strings.Join] at h
  | cons q rest =>
    obtain ⟨hq, line, hline⟩ := hmem q (List.mem_cons_self _ _)
    cases q with
    | nil => exact absurd rfl hq
    | cons qc qt =>
      have hc : qc = c := by
        cases rest with
        | nil =>
          simp only [strings.Join] at h
          exact (List.cons.inj h).1
        | cons b rest' =>
          rw [Join_cons_cons] at h
          simp only [List.cons_append] at h
          exact (List.cons.inj h).1
      subst hc
      exact TrimSpace_head line qc qt hline

theorem joinLines_all_space (cmd : GoString) (h : ∀ c ∈ cmd, unicode.IsSpace c = true) :
    joinLines cmd = [] := by
  rw [joinLines_eq_spec]
  unfold specJoinLines
  have : ((strings.Split cmd '\n').map strings.TrimSpace).filter
      (fun l => decide (l ≠ [])) = [] := by
    rw [List.filter_eq_nil_iff]
    intro q hq
    obtain ⟨line, hline, hq2⟩ := List.mem_map.1 hq
    have : strings.TrimSpace line = [] := by
      apply TrimSpace_all_space
      intro c hc
      rcases splitAux_mem '\n' cmd [] line hline c hc with h' | h'
      · cases h'
      · exact h c h'
    rw [← hq2, this]
    simp
  rw [this]
  rfl

theorem Fields_ne_nil_of_head (c : Char) (t : GoString) (hc : unicode.IsSpace c = false) :
    strings.Fields (c :: t) ≠ [] := by
  show strings.fieldsAux unicode.IsSpace (c :: t) [] ≠ []
  rw [strings.fieldsAux]
  simp only [hc, Bool.false_eq_true, if_false]
  exact fieldsAux_ne_nil _ _ _ (by simp)

theorem generateCommand_rendered (T : TemplateEngine) (environ : GoString → Option GoString)
    (config : Config) (envName : GoString) (env : Environment) (tmpl : T.Tmpl)
    (buf : GoString)
    (henv : GoMap.get config.Environments envName = some env)
    (hne : env.GostCommand ≠ [])
    (hparse : T.Parse env.GostCommand = .ok tmpl)
    (hexec : T.Execute tmpl (templateData config env) = .ok buf) :
    generateCommand T environ config envName =
      if (parseArguments (os.ExpandEnv environ buf)).length = 0 then
        .error "no arguments generated from template".toList
      else .ok (parseArguments (os.ExpandEnv environ buf)) := by
  simp only [generateCommand, henv, hparse, hexec, if_neg hne]

/-! ## The claims on tokenization -/

/-- C7: when `shlex.Split` rejects the joined line of the command string,
`parseArguments` returns `strings.Fields` of that joined line, the list is
not empty, and `generateCommand` returns it as a success. -/
theorem C7_tokenizer_fallback (cmd : GoString) (words : List GoString) (err : GoString)
    (hrej : shlex.Split (joinLines cmd) = (words, some err)) :
    parseArguments cmd = strings.Fields (joinLines cmd) ∧
    parseArguments cmd ≠ [] ∧
    ∀ (T : TemplateEngine) (environ : GoString → Option GoString) (config : Config)
      (envName : GoString) (env : Environment) (tmpl : T.Tmpl) (buf : GoString),
      GoMap.get config.Environments envName = some env → env.GostCommand ≠ [] →
      T.Parse env.GostCommand = .ok tmpl →
      T.Execute tmpl (templateData config env) = .ok buf →
      os.ExpandEnv environ buf = cmd →
      generateCommand T environ config envName = .ok (strings.Fields (joinLines cmd)) := by
  have hpa : parseArguments cmd = strings.Fields (joinLines cmd) := by
    simp only [parseArguments, hrej]
  have hnonempty : strings.Fields (joinLines cmd) ≠ [] := by
    cases hj : joinLines cmd with
    | nil =>
      rw [hj] at hrej
      cases hrej
    | cons c t => exact Fields_ne_nil_of_head c t (joinLines_head cmd c t hj)
  refine ⟨hpa, by rw [hpa]; exact hnonempty, ?_⟩
  intro T environ config envName env tmpl buf henv hne hparse hexec hcmd
  rw [generateCommand_rendered T environ config envName env tmpl buf henv hne hparse hexec,
    hcmd, hpa]
  have : ¬ (strings.Fields (joinLines cmd)).length = 0 := by
    intro h
    exact hnonempty (List.length_eq_zero.1 h)
  rw [if_neg this]

/-- Witness of C7: an unterminated double quote, an unterminated single quote
and a trailing backslash each make shlex fail, and the white-space split of
the joined line is returned. -/
theorem C7_tokenizer_fallback_witness :
    parseArguments "-a \x22b c\n  -d".toList =
      ["-a".toList, "\x22b".toList, "c".toList, "-d".toList] ∧
    parseArguments "-a \x27b c".toList = ["-a".toList, "\x27b".toList, "c".toList] ∧
    parseArguments "-a b\x5c".toList = ["-a".toList, "b\x5c".toList] :=
  ⟨(C7_tokenizer_fallback "-a \x22b c\n  -d".toList ["-a".toList]
      "EOF found when expecting closing quote".toList (by decide)).1.trans (by decide),
   (C7_tokenizer_fallback "-a \x27b c".toList ["-a".toList]
      "EOF found when expecting closing quote".toList (by decide)).1.trans (by decide),
   (C7_tokenizer_fallback "-a b\x5c".toList ["-a".toList]
      "EOF found after escape character".toList (by decide)).1.trans (by decide)⟩

/-- C8: when the environment exists, its template is not empty and the
template parses and executes, `generateCommand` fails exactly when the
tokenized argument list is empty, with the error
`no arguments generated from template`, and otherwise returns the tokenized
list unchanged; so a successful result is never empty, and a template that
renders to white space and blank lines only fails with this error. -/
theorem C8_no_arguments_generated (T : TemplateEngine)
    (environ : GoString → Option GoString) (config : Config) (envName : GoString)
    (env : Environment) (tmpl : T.Tmpl) (buf : GoString)
    (henv : GoMap.get config.Environments envName = some env)
    (hne : env.GostCommand ≠ [])
    (hparse : T.Parse env.GostCommand = .ok tmpl)
    (hexec : T.Execute tmpl (templateData config env) = .ok buf) :
    (parseArguments (os.ExpandEnv environ buf) = [] ↔
      ∃ e, generateCommand T environ config envName = .error e) ∧
    (∀ e, generateCommand T environ config envName = .error e →
      e = "no arguments generated from template".toList) ∧
    (parseArguments (os.ExpandEnv environ buf) ≠ [] →
      generateCommand T environ config envName =
        .ok (parseArguments (os.ExpandEnv environ buf))) ∧
    (∀ args, generateCommand T environ config envName = .ok args → args ≠ []) ∧
    ((∀ c ∈ buf, unicode.IsSpace c = true) →
      generateCommand T environ config envName =
        .error "no arguments generated from template".toList) := by
  have hgen := generateCommand_rendered T environ config envName env tmpl buf henv hne
    hparse hexec
  have hempty : parseArguments (os.ExpandEnv environ buf) = [] →
      generateCommand T environ config envName =
        .error "no arguments generated from template".toList := by
    intro h
    rw [hgen, h]
    rfl
  have hfull : parseArguments (os.ExpandEnv environ buf) ≠ [] →
      generateCommand T environ config envName =
        .ok (parseArguments (os.ExpandEnv environ buf)) := by
    intro h
    have : ¬ (parseArguments (os.ExpandEnv environ buf)).length = 0 :=
      fun h0 => h (List.length_eq_zero.1 h0)
    rw [hgen, if_neg this]
  refine ⟨⟨fun h => ⟨_, hempty h⟩, ?_⟩, ?_, hfull, ?_, ?_⟩
  · rintro ⟨e, he⟩
    by_contra hcon
    rw [hfull hcon] at he
    cases he
  · intro e he
    by_cases h : parseArguments (os.ExpandEnv environ buf) = []
    · rw [hempty h] at he
      exact (Except.error.inj he).symm
    · rw [hfull h] at he
      cases he
  · intro args hargs
    by_cases h : parseArguments (os.ExpandEnv environ buf) = []
    · rw [hempty h] at hargs
      cases hargs
    · rw [hfull h] at hargs
      rw [← Except.ok.inj hargs]
      exact h
  · intro hsp
    apply hempty
    have hnd : '$' ∉ buf := by
      intro hmem
      have := hsp '$' hmem
      revert this
      decide
    have hexp : os.ExpandEnv environ buf = buf := Expand_no_dollar _ buf hnd
    rw [hexp]
    simp only [parseArguments, joinLines_all_space buf hsp]
    rfl

/-- Witness of C8: an environment `blank` whose template is white space and
blank lines only fails with `no arguments generated from template`. -/
theorem C8_no_arguments_generated_witness :
    generateCommand (template.engine template.fragmentOnly) (fun _ => none)
        { Defaults := none,
          Environments := some [("blank".toList,
            { Vars := none, GostCommand := "  \n\t\n ".toList })] }
        "blank".toList =
      .error "no arguments generated from template".toList :=
  (C8_no_arguments_generated (template.engine template.fragmentOnly) (fun _ => none)
    { Defaults := none,
      Environments := some [("blank".toList,
        { Vars := none, GostCommand := "  \n\t\n ".toList })] }
    "blank".toList { Vars := none, GostCommand := "  \n\t\n ".toList }
    (.inl [template.Node.text "  \n\t\n ".toList]) "  \n\t\n ".toList
    (by rfl) (by decide) (by rfl) (by rfl)).2.2.2.2 (by decide)

/-! ## Lemmas on the template fragment -/

theorem lex_text_to_delim (pre : GoString) (hpre : '\x7b' ∉ pre) :
    ∀ (cur : GoString) (nodes : List template.Node) (rest : GoString),
      template.lex .inText cur nodes (pre ++ '\x7b' :: '\x7b' :: rest) =
        template.lex .afterLeftDelim [] (template.flushText nodes (cur ++ pre)) rest := by
  induction pre with
  | nil =>
    intro cur nodes rest
    simp only [List.nil_append, template.lex, and_self, if_true, List.append_nil]
  | cons c cs ih =>
    intro cur nodes rest
    simp only [List.mem_cons, not_or] at hpre
    have hc : ¬ (c = '\x7b') := fun h => hpre.1 h.symm
    have ih' := ih hpre.2 (cur ++ [c]) nodes rest
    cases cs with
    | nil =>
      simp only [List.cons_append, List.nil_append, template.lex, hc, false_and, if_false]
      simp
    | cons d ds =>
      simp only [List.cons_append] at ih'
      simp only [List.cons_append, template.lex, hc, false_and, if_false, List.append_eq]
      rw [ih']
      simp

theorem lex_field (name : GoString) (hal : ∀ c ∈ name, os.isAlphaNum c = true) :
    ∀ (cur : GoString) (nodes : List template.Node) (rest : GoString),
      template.lex .inField cur nodes (name ++ '\x7d' :: '\x7d' :: rest) =
        template.lex .inText [] (nodes ++ [template.Node.field (cur ++ name)]) rest := by
  induction name with
  | nil =>
    intro cur nodes rest
    have h1 : os.isAlphaNum '\x7d' = false := by decide
    have h2 : template.isSpace '\x7d' = false := by decide
    simp only [List.nil_append, template.lex, h1, h2, Bool.false_eq_true, if_false, and_self,
      if_true, List.append_nil]
  | cons c cs ih =>
    intro cur nodes rest
    have hc := hal c (List.mem_cons_self _ _)
    have ih' := ih (fun x hx => hal x (List.mem_cons_of_mem _ hx)) (cur ++ [c]) nodes rest
    cases cs with
    | nil =>
      have h1 : os.isAlphaNum '\x7d' = false := by decide
      have h2 : template.isSpace '\x7d' = false := by decide
      simp only [List.cons_append, List.nil_append, template.lex, hc, if_true, h1, h2]
      simp
    | cons d ds =>
      simp only [List.cons_append] at ih'
      simp only [List.cons_append, template.lex, hc, if_true, List.append_eq]
      rw [ih']
      simp

theorem execNodes_append (data : List (GoString × Value)) (a b : List template.Node) :
    template.execNodes data (a ++ b) =
      template.execNodes data a ++ template.execNodes data b := by
  simp [template.execNodes]

theorem execNodes_flushText (data : List (GoString × Value)) (nodes : List template.Node)
    (cur : GoString) :
    template.execNodes data (template.flushText nodes cur) =
      template.execNodes data nodes ++ cur := by
  unfold template.flushText
  by_cases h : cur = []
  · simp [h]
  · rw [if_neg h, execNodes_append]
    simp [template.execNodes, template.execNode]

theorem templateData_lookup_none (config : Config) (env : Environment) (k : GoString)
    (hd : GoMap.get config.Defaults k = none) (hv : GoMap.get env.Vars k = none) :
    (templateData config env).lookup k = none := by
  obtain ⟨defaults, envs⟩ := config
  obtain ⟨vars, cmd⟩ := env
  cases defaults with
  | none =>
    cases vars with
    | none => rfl
    | some vs => exact lookup_rangeSet_none vs [] k hv rfl
  | some ds =>
    cases vars with
    | none => exact lookup_rangeSet_none ds [] k hd rfl
    | some vs =>
      exact lookup_rangeSet_none vs _ k hv (lookup_rangeSet_none ds [] k hd rfl)

theorem lex_text_skip (s : GoString) (hs : template.plainText s = true) :
    ∀ (cur : GoString) (nodes : List template.Node) (rest : GoString),
      template.lex .inText cur nodes (s ++ rest) =
        template.lex .inText (cur ++ s) nodes rest := by
  induction s with
  | nil => intro cur nodes rest; simp
  | cons c cs ih =>
    intro cur nodes rest
    cases cs with
    | nil =>
      have hc : ¬ (c = '\x7b') := by
        simpa [template.plainText] using hs
      cases rest with
      | nil => simp only [List.append_nil, template.lex]
      | cons d ds =>
        simp only [List.cons_append, List.nil_append, template.lex, hc, false_and, if_false]
    | cons d ds =>
      have hs0 : (¬ c = '\x7b' ∨ ¬ d = '\x7b') ∧ template.plainText (d :: ds) = true := by
        simpa [template.plainText] using hs
      have hs' : ¬ (c = '\x7b' ∧ d = '\x7b') ∧ template.plainText (d :: ds) = true :=
        ⟨fun h => hs0.1.elim (fun h1 => h1 h.1) (fun h2 => h2 h.2), hs0.2⟩
      have ih' := ih hs'.2 (cur ++ [c]) nodes rest
      simp only [List.cons_append] at ih'
      simp only [List.cons_append, template.lex, hs'.1, if_false, List.append_eq]
      rw [ih']
      simp

theorem lex_field_ref (name : GoString) (hname : template.validField name = true) :
    ∀ (cur : GoString) (nodes : List template.Node) (rest : GoString),
      template.lex .inText cur nodes
          ((template.Node.field name).source ++ rest) =
        template.lex .inText [] (template.flushText nodes cur ++ [template.Node.field name])
          rest := by
  intro cur nodes rest
  cases name with
  | nil => simp [template.validField] at hname
  | cons d ds =>
    have hv0 : (d.toNat < 48 ∨ 57 < d.toNat) ∧ os.isAlphaNum d = true ∧
        ∀ x ∈ ds, os.isAlphaNum x = true := by
      simpa [template.validField] using hname
    have hv : ¬ (d.toNat ≥ 48 ∧ d.toNat ≤ 57) ∧
        ∀ c ∈ d :: ds, os.isAlphaNum c = true := by
      refine ⟨fun h => by omega, fun c hc => ?_⟩
      rcases List.mem_cons.1 hc with rfl | hc
      · exact hv0.2.1
      · exact hv0.2.2 c hc
    have hd := hv.2 d (List.mem_cons_self _ _)
    have hdot : template.isSpace '.' = false := by decide
    have hshape : (template.Node.field (d :: ds)).source ++ rest =
        [] ++ '\x7b' :: '\x7b' :: ('.' :: (d :: ds ++ '\x7d' :: '\x7d' :: rest)) := by
      simp [template.Node.source, String.toList]
    rw [hshape, lex_text_to_delim [] (by simp)]
    simp only [List.cons_append, template.lex, hdot, Bool.false_eq_true, if_false, hd, hv.1,
      not_false_eq_true, and_self, if_true, List.nil_append, List.append_eq, List.append_nil]
    have := lex_field (d :: ds) hv.2 [] (template.flushText nodes cur) rest
    simp only [List.cons_append, List.nil_append] at this
    rw [this]

theorem lex_written (nodes : List template.Node)
    (hw : nodes.all template.Node.written = true) :
    ∀ (cur : GoString) (acc : List template.Node),
      ∃ out, template.lex .inText cur acc (template.sourceOf nodes) = some out ∧
        ∀ data, template.execNodes data out =
          template.execNodes data acc ++ cur ++ template.execNodes data nodes := by
  induction nodes with
  | nil =>
    intro cur acc
    refine ⟨template.flushText acc cur, by simp [template.sourceOf, template.lex], ?_⟩
    intro data
    rw [execNodes_flushText]
    simp [template.execNodes]
  | cons node rest ih =>
    intro cur acc
    simp only [List.all_cons, Bool.and_eq_true] at hw
    have hsrc : template.sourceOf (node :: rest) = node.source ++ template.sourceOf rest := by
      simp [template.sourceOf]
    rw [hsrc]
    cases node with
    | text s =>
      obtain ⟨out, hout, hexec⟩ := ih hw.2 (cur ++ s) acc
      refine ⟨out, ?_, ?_⟩
      · rw [← hout]
        exact lex_text_skip s hw.1 cur acc _
      · intro data
        rw [hexec data]
        simp [template.execNodes, template.execNode]
    | field name =>
      obtain ⟨out, hout, hexec⟩ := ih hw.2 []
        (template.flushText acc cur ++ [template.Node.field name])
      refine ⟨out, ?_, ?_⟩
      · rw [← hout]
        exact lex_field_ref name hw.1 cur acc _
      · intro data
        rw [hexec data, execNodes_append, execNodes_flushText]
        simp [template.execNodes]

/-! ## The claims on rendering and on the order of the steps -/

/-- C5 as stated fails: with the template `-H (field host)` and no variable
`host`, the reference contributes the text `<no value>`, which gives two
more arguments, instead of contributing nothing. -/
theorem C5_counterexample :
    generateCommand (template.engine template.fragmentOnly) (fun _ => none) missingVarConfig "bare".toList =
      .ok ["-H".toList, "<no".toList, "value>".toList] ∧
    generateCommand (template.engine template.fragmentOnly) (fun _ => none) missingVarConfig "bare".toList ≠
      .ok ["-H".toList] := by
  constructor
  · rfl
  · intro h
    have h2 : generateCommand (template.engine template.fragmentOnly) (fun _ => none) missingVarConfig
        "bare".toList = .ok ["-H".toList, "<no".toList, "value>".toList] := rfl
    rw [h2] at h
    have h3 := Except.ok.inj h
    revert h3
    decide

/-- C5 amended: in every command template written as a sequence of literal
texts and field references, a reference to a variable that is in neither the
defaults nor the vars contributes the text `<no value>` to the rendered
command and does not make the execution of the template fail: the template
parses, its execution succeeds with the concatenation of what each node
writes, and `generateCommand` goes on with this string. -/
theorem C5_missing_variable_renders_no_value (beyond : TemplateEngine)
    (environ : GoString → Option GoString) (config : Config) (envName : GoString)
    (env : Environment) (nodes : List template.Node)
    (henv : GoMap.get config.Environments envName = some env)
    (htmpl : env.GostCommand = template.sourceOf nodes)
    (hne : env.GostCommand ≠ [])
    (hwritten : nodes.all template.Node.written = true) :
    (∀ name, GoMap.get config.Defaults name = none → GoMap.get env.Vars name = none →
      template.execNode (templateData config env) (template.Node.field name) =
        "<no value>".toList) ∧
    (∀ before name after, nodes = before ++ template.Node.field name :: after →
      GoMap.get config.Defaults name = none → GoMap.get env.Vars name = none →
      template.execNodes (templateData config env) nodes =
        template.execNodes (templateData config env) before ++ "<no value>".toList ++
          template.execNodes (templateData config env) after) ∧
    (∃ tmpl, (template.engine beyond).Parse env.GostCommand = .ok tmpl ∧
      (template.engine beyond).Execute tmpl (templateData config env) =
        .ok (template.execNodes (templateData config env) nodes)) ∧
    generateCommand (template.engine beyond) environ config envName =
      if (parseArguments (os.ExpandEnv environ
          (template.execNodes (templateData config env) nodes))).length = 0 then
        .error "no arguments generated from template".toList
      else .ok (parseArguments (os.ExpandEnv environ
          (template.execNodes (templateData config env) nodes))) := by
  have hmissing : ∀ name, GoMap.get config.Defaults name = none →
      GoMap.get env.Vars name = none →
      template.execNode (templateData config env) (template.Node.field name) =
        "<no value>".toList := by
    intro name hd hv
    simp only [template.execNode, templateData_lookup_none config env name hd hv]
  obtain ⟨out, hout, hexec⟩ := lex_written nodes hwritten [] []
  have hparse : (template.engine beyond).Parse env.GostCommand = .ok (.inl out) := by
    show (match template.lex .inText [] [] env.GostCommand with
      | some nodes => Except.ok (Sum.inl nodes)
      | none =>
        match beyond.Parse env.GostCommand with
        | .ok tmpl => Except.ok (Sum.inr tmpl)
        | .error err => Except.error err) = _
    rw [htmpl, hout]
  have hrun : (template.engine beyond).Execute (.inl out) (templateData config env) =
      .ok (template.execNodes (templateData config env) nodes) := by
    show Except.ok (template.execNodes (templateData config env) out) = _
    rw [hexec]
    simp [template.execNodes]
  refine ⟨hmissing, ?_, ⟨_, hparse, hrun⟩,
    generateCommand_rendered (template.engine beyond) environ config envName env _ _ henv hne
      hparse hrun⟩
  intro before name after hnodes hd hv
  rw [hnodes, execNodes_append]
  have : template.execNodes (templateData config env) (template.Node.field name :: after) =
      template.execNode (templateData config env) (template.Node.field name) ++
        template.execNodes (templateData config env) after := by
    simp [template.execNodes]
  rw [this, hmissing name hd hv]
  simp

/-- Witness of C5 amended on `twoRefConfig`, the template of the end-to-end
example with `port` set and `host` set nowhere. -/
theorem C5_missing_variable_renders_no_value_witness :
    template.execNodes (templateData twoRefConfig
        { Vars := some [],
          GostCommand := "-H \x7b\x7b.host\x7d\x7d -p \x7b\x7b.port\x7d\x7d".toList })
      [.text "-H ".toList, .field "host".toList, .text " -p ".toList, .field "port".toList] =
      "-H <no value> -p 8080".toList ∧
    generateCommand (template.engine template.fragmentOnly) (fun _ => none) twoRefConfig
        "staging".toList =
      .ok ["-H".toList, "<no".toList, "value>".toList, "-p".toList, "8080".toList] :=
  have h := C5_missing_variable_renders_no_value template.fragmentOnly (fun _ => none)
    twoRefConfig "staging".toList
    { Vars := some [],
      GostCommand := "-H \x7b\x7b.host\x7d\x7d -p \x7b\x7b.port\x7d\x7d".toList }
    [.text "-H ".toList, .field "host".toList, .text " -p ".toList, .field "port".toList]
    (by rfl) (by rfl) (by decide) (by decide)
  ⟨(h.2.1 [.text "-H ".toList] "host".toList [.text " -p ".toList, .field "port".toList]
      rfl (by rfl) (by rfl)).trans (by rfl),
   h.2.2.2.trans (by rfl)⟩

/-- C6 as stated fails: with the template `-H "$X"` and `X` holding a newline
followed by a space, the code expands first and then joins the lines, which
gives the argument `a b`, whereas joining first and expanding afterwards
keeps the value verbatim. -/
theorem C6_counterexample :
    generateCommand (template.engine template.fragmentOnly) newlineEnviron quotedRefConfig "banner".toList =
      .ok ["-H".toList, "a b".toList] ∧
    specExpandTokenize newlineEnviron "-H \x22$X\x22".toList =
      ["-H".toList, "a\n b".toList] ∧
    generateCommand (template.engine template.fragmentOnly) newlineEnviron quotedRefConfig "banner".toList ≠
      .ok (specExpandTokenize newlineEnviron "-H \x22$X\x22".toList) := by
  have h1 : generateCommand (template.engine template.fragmentOnly) newlineEnviron quotedRefConfig
      "banner".toList = .ok ["-H".toList, "a b".toList] := by rfl
  have h2 : specExpandTokenize newlineEnviron "-H \x22$X\x22".toList =
      ["-H".toList, "a\n b".toList] := by decide
  refine ⟨h1, h2, ?_⟩
  rw [h1, h2]
  intro h
  have h3 := Except.ok.inj h
  revert h3
  decide

/-- C6 amended: the argument list that `generateCommand` returns is the
tokenization of the string obtained by first replacing every reference to
the process environment in the rendered string and then trimming each line,
dropping the blank lines and joining the rest with single spaces; so a
newline inside a variable's value is a line break like any other. -/
theorem C6_expand_then_join_lines (T : TemplateEngine)
    (environ : GoString → Option GoString) (config : Config) (envName : GoString)
    (env : Environment) (tmpl : T.Tmpl) (buf : GoString)
    (henv : GoMap.get config.Environments envName = some env)
    (hne : env.GostCommand ≠ [])
    (hparse : T.Parse env.GostCommand = .ok tmpl)
    (hexec : T.Execute tmpl (templateData config env) = .ok buf) :
    generateCommand T environ config envName =
      if (specTokenize (specJoinLines (os.ExpandEnv environ buf))).length = 0 then
        .error "no arguments generated from template".toList
      else .ok (specTokenize (specJoinLines (os.ExpandEnv environ buf))) := by
  have hpa : ∀ cmd, parseArguments cmd = specTokenize (specJoinLines cmd) := by
    intro cmd
    simp only [parseArguments, specTokenize, joinLines_eq_spec]
  rw [generateCommand_rendered T environ config envName env tmpl buf henv hne hparse hexec,
    hpa]

/-- Witness of C6 amended on `quotedRefConfig`. -/
theorem C6_expand_then_join_lines_witness :
    generateCommand (template.engine template.fragmentOnly) newlineEnviron quotedRefConfig "banner".toList =
      .ok (specTokenize (specJoinLines (os.ExpandEnv newlineEnviron "-H \x22$X\x22".toList))) :=
  (C6_expand_then_join_lines (template.engine template.fragmentOnly) newlineEnviron quotedRefConfig "banner".toList
    { Vars := none, GostCommand := "-H \x22$X\x22".toList }
    (.inl [template.Node.text "-H \x22$X\x22".toList]) "-H \x22$X\x22".toList
    (by rfl) (by decide) (by rfl) (by rfl)).trans (by rfl)
